import Mathlib

/-!
Verification of the snapshot-reconciliation core of the `github-repo-traffic`
repository: a shallow embedding of `src/process.py` (window expansion,
reconciliation, point-series collection, per-repository processing, batch
processing) and `src/verify_2wk_window.py` (the window-invariant verifier).

Modelling conventions:
* Calendar dates (`'%Y-%m-%d'` strings in the source) are represented by their
  day number as an `Int`; the string form is in bijection with day numbers, and
  the source only ever compares such strings for equality and order.
* Timestamps (Python floats, seconds since the epoch) are represented as `Int`
  seconds.  `date.fromtimestamp` becomes floor division by 86400 (UTC).
* Python `assert` failures and raised exceptions are represented by `Except`
  error values, using the error taxonomy named in the specification
  (`DuplicateDayError`, `ReconciliationConflictError`, ...).
* Python dicts keyed by date are represented by insertion-ordered association
  lists; `sorted(dict)` becomes `List.insertionSort` on the key list.
-/

instance {ε α : Type} [DecidableEq ε] [DecidableEq α] : DecidableEq (Except ε α) :=
  fun a b =>
  match a, b with
  | .ok x, .ok y =>
    if h : x = y then isTrue (by rw [h]) else isFalse (by intro hc; cases hc; exact h rfl)
  | .error x, .error y =>
    if h : x = y then isTrue (by rw [h]) else isFalse (by intro hc; cases hc; exact h rfl)
  | .ok _, .error _ => isFalse (by intro hc; cases hc)
  | .error _, .ok _ => isFalse (by intro hc; cases hc)

namespace RepoTraffic

/-- One sparse daily observation: `{'date': ..., 'count': ..., 'uniques': ...}`
as written by `fetch.day_to_json`. -/
structure DayObs where
  date : Int
  count : Int
  uniques : Int
deriving Repr, DecidableEq

/-- One windowed metric (`clones` or `views`): totals plus the sparse daily
list, as written by `fetch.traffic_to_json`. -/
structure Metric where
  count : Int
  uniques : Int
  daily : List DayObs
deriving Repr, DecidableEq

/-- One raw crawl snapshot (one JSON line of the raw log), as written by
`fetch.repo_to_json`. -/
structure Snapshot where
  time : Int
  repo : String
  stars : Int
  watchers : Int
  forks : Int
  clones : Metric
  views : Metric
deriving Repr, DecidableEq

/-- A `(count, uniques)` value for one day. -/
abbrev Pair := Int × Int

/-- Failures of `process.py`, following the specification's error taxonomy.
In the source these are `assert` failures (`duplicateDayError`: process.py:58,
`reconciliationConflictError`: process.py:89, `metricAlignmentError`:
process.py:145, `alignmentError`: process.py:151) and the `ValueError`-like
unpack failure of `zip(*pairs)` on an empty list (`emptySeriesError`,
process.py:97). -/
inductive ProcessError where
  | duplicateDayError (date : Int)
  | reconciliationConflictError (date : Int) (firstVal newVal : Pair)
  | metricAlignmentError
  | alignmentError
  | emptySeriesError
deriving Repr, DecidableEq

/-- Seconds per calendar day. -/
def secPerDay : Int := 86400

/-- `date.fromtimestamp`: the calendar day containing timestamp `t` (UTC). -/
def dateOfTime (t : Int) : Int := Int.fdiv t secPerDay

/-- `process.date_range`: every day from `start` (inclusive) to `stop`
(exclusive); empty when `stop <= start`, mirroring `range((stop-start).days)`. -/
def date_range (start stop : Int) : List Int :=
  (List.range (stop - start).toNat).map (fun (i : Nat) => start + (i : Int))

/-- Association-list lookup keyed by day number (models Python dict lookup). -/
def alookup (d : Int) : List (Int × Pair) → Option Pair
  | [] => none
  | (k, v) :: rest => if d = k then some v else alookup d rest

/-- Lookup in a day-keyed dict defaulting to `(0, 0)` (models the
`defaultdict(lambda: zero_pair)` of `process.each_day`). -/
def lookupD (m : List (Int × Pair)) (d : Int) : Pair := (alookup d m).getD (0, 0)

/-- The `ymd2pair`-building loop of `process.each_day` (process.py:56-59):
insert each sparse day, asserting its date was not already present. -/
def buildDayMap : List (Int × Pair) → List DayObs → Except ProcessError (List (Int × Pair))
  | m, [] => .ok m
  | m, day :: rest =>
    match alookup day.date m with
    | some _ => .error (.duplicateDayError day.date)
    | none => buildDayMap (m ++ [(day.date, (day.count, day.uniques))]) rest

/-- `process.each_day`: expand a sparse daily list into the dense window
`[fetch_date - (window_days - 2), fetch_date - 1)`, filling missing days with
`(0, 0)`. -/
def each_day (days : List DayObs) (fetch_time : Int) (window_days : Int) :
    Except ProcessError (List (Int × Pair)) :=
  match buildDayMap [] days with
  | .error e => .error e
  | .ok m =>
    let fetch_date := dateOfTime fetch_time
    .ok ((date_range (fetch_date - (window_days - 2)) (fetch_date - 1)).map
      (fun d => (d, lookupD m d)))

/-- The inner merge loop of `process.get_daily_stats` (process.py:85-89) over
one expanded day list: first observation of a date wins, any later observation
must agree exactly. -/
def mergeEntries : List (Int × Pair) → List (Int × Pair) → Except ProcessError (List (Int × Pair))
  | m, [] => .ok m
  | m, (d, p) :: rest =>
    match alookup d m with
    | none => mergeEntries (m ++ [(d, p)]) rest
    | some q => if q = p then mergeEntries m rest
                else .error (.reconciliationConflictError d q p)

/-- The outer loop of `process.get_daily_stats` (process.py:82-89): expand each
snapshot's sparse list for the chosen metric, merging into `date2pair`. -/
def mergeObjs (key : Snapshot → Metric) (window_days : Int) :
    List (Int × Pair) → List Snapshot → Except ProcessError (List (Int × Pair))
  | m, [] => .ok m
  | m, obj :: rest =>
    match each_day (key obj).daily obj.time window_days with
    | .error e => .error e
    | .ok entries =>
      match mergeEntries m entries with
      | .error e => .error e
      | .ok m2 => mergeObjs key window_days m2 rest

/-- `process.get_daily_stats`: reconcile all snapshots of one repository for one
windowed metric into `(dates, counts, uniques)`, dates sorted ascending.
`key` selects the metric dict (`'clones'` or `'views'`).  The final
`counts, uniques = zip(*pairs)` raises on an empty `pairs` list
(`emptySeriesError`). -/
def get_daily_stats (objs : List Snapshot) (key : Snapshot → Metric)
    (window_days : Int) : Except ProcessError (List Int × List Int × List Int) :=
  match mergeObjs key window_days [] objs with
  | .error e => .error e
  | .ok m =>
    let dates := List.insertionSort (· ≤ ·) (m.map Prod.fst)
    let pairs := dates.map (fun d => lookupD m d)
    match pairs with
    | [] => .error .emptySeriesError
    | _ => .ok (dates, pairs.map Prod.fst, pairs.map Prod.snd)

/-- `process.get_point_stats`: collect `(fetch_time, value)` per snapshot, in
snapshot order, by appending to two accumulator lists. -/
def get_point_stats (objs : List Snapshot) (key : Snapshot → Int) :
    List Int × List Int :=
  objs.foldl (fun acc obj => (acc.1 ++ [obj.time], acc.2 ++ [key obj])) ([], [])

/-- `process.noon_time_from_date`: timestamp of noon of the given day. -/
def noon_time_from_date (d : Int) : Int := d * secPerDay + 12 * 60 * 60

/-- The `daily` block of a processed record (process.py:155-162). -/
structure DailyData where
  dates : List Int
  times : List Int
  clones : List Int
  cloners : List Int
  views : List Int
  viewers : List Int
deriving Repr, DecidableEq

/-- The `point` block of a processed record (process.py:163-168). -/
structure PointData where
  times : List Int
  forks : List Int
  stars : List Int
  watchers : List Int
deriving Repr, DecidableEq

/-- One processed repository record (process.py:153-169). -/
structure ProcessedRecord where
  repo : String
  daily : DailyData
  point : PointData
deriving Repr, DecidableEq

/-- `process.process_repo`: reconcile both windowed metrics (asserting their
date axes agree), collect the three point metrics (asserting their timestamp
axes agree), and build the processed record. -/
def process_repo (repo : String) (objs : List Snapshot) :
    Except ProcessError ProcessedRecord :=
  match get_daily_stats objs (fun s => s.clones) 14,
        get_daily_stats objs (fun s => s.views) 14 with
  | .error e, _ => .error e
  | .ok _, .error e => .error e
  | .ok (dates, clones, cloners), .ok (dates2, views, viewers) =>
    if dates = dates2 then
      let daily_times := dates.map noon_time_from_date
      let pf := get_point_stats objs (fun s => s.forks)
      let ps := get_point_stats objs (fun s => s.stars)
      let pw := get_point_stats objs (fun s => s.watchers)
      if pf.1 = ps.1 ∧ ps.1 = pw.1 then
        .ok { repo := repo,
              daily := { dates := dates, times := daily_times, clones := clones,
                         cloners := cloners, views := views, viewers := viewers },
              point := { times := pf.1, forks := pf.2, stars := ps.2,
                         watchers := pw.2 } }
      else .error .alignmentError
    else .error .metricAlignmentError

/-- Failures of `process.process_repos`: the empty-raw-log `ValueError`
(process.py:190) or an uncaught per-repository `ProcessError`. -/
inductive PipelineError where
  | rawFileEmpty
  | perRepo (repo : String) (e : ProcessError)
deriving Repr, DecidableEq

/-- Lexicographic comparison of char lists by code point (the order Python's
`sorted` uses on strings). -/
def charListLe : List Char → List Char → Bool
  | [], _ => true
  | _ :: _, [] => false
  | a :: as, b :: bs =>
    if a < b then true else if b < a then false else charListLe as bs

/-- Python string `<=` on repo names. -/
def strLe (a b : String) : Bool := charListLe a.data b.data

/-- `repo.replace('/', '.') + '.json'` (process.py:203). -/
def repoBasename (repo : String) : String :=
  String.mk (repo.data.map (fun c => if c = '/' then '.' else c)) ++ ".json"

/-- The per-repository loop of `process.process_repos` (process.py:201-205):
process each repository in sorted order, writing one file per success.  An
uncaught failure stops the whole loop, leaving only the files written so far. -/
def processRepoLoop : List (String × List Snapshot) → List (String × ProcessedRecord) →
    List (String × ProcessedRecord) × Option PipelineError
  | [], written => (written, none)
  | (repo, objs) :: rest, written =>
    match process_repo repo objs with
    | .ok r => processRepoLoop rest (written ++ [(repoBasename repo, r)])
    | .error e => (written, some (.perRepo repo e))

/-- The repository names of a raw log, grouped (`defaultdict(list)`) and then
sorted as Python's `sorted` sorts strings. -/
def sortedRepoNames (raw : List Snapshot) : List String :=
  List.insertionSort (fun a b => strLe a b = true) ((raw.map Snapshot.repo).dedup)

/-- `process.process_repos`: group the raw log by repository and process each
repository in sorted name order.  `prior` is the pre-existing content of the
processed-output directory: it is wiped (`rmtree` then `makedirs`,
process.py:197-199) before any processing, except that the empty-raw-log
`ValueError` is raised before the wipe, leaving `prior` in place.  Returns the
directory contents after the run and the uncaught error, if any. -/
def process_repos (raw : List Snapshot) (prior : List (String × ProcessedRecord)) :
    List (String × ProcessedRecord) × Option PipelineError :=
  match raw with
  | [] => (prior, some .rawFileEmpty)
  | _ :: _ =>
    processRepoLoop ((sortedRepoNames raw).map
      (fun r => (r, raw.filter (fun s => decide (s.repo = r))))) []

/-! ### The window-invariant verifier, `src/verify_2wk_window.py` -/

/-- Failures of `verify_2wk_window.main`: the `IndexError` of `days[0]` /
`gaps[0]` on an empty list, or one of the two final `assert`s. -/
inductive VerifyError where
  | indexError
  | assertionError
deriving Repr, DecidableEq

/-- `mktime(strptime(date, '%Y-%m-%d').timetuple())`: midnight of the day. -/
def mktimeOfDate (d : Int) : Int := d * secPerDay

/-- One iteration of the gap loop (verify_2wk_window.py:29-39): the difference
between `fetch_time` and the midnight of the FIRST entry of each daily list
(`days[0]['date']`), minimised over clones and views.  `IndexError` when either
list is empty. -/
def snapshotGap (s : Snapshot) : Except VerifyError Int :=
  match s.clones.daily with
  | [] => .error .indexError
  | c :: _ =>
    match s.views.daily with
    | [] => .error .indexError
    | v :: _ => .ok (s.time - min (mktimeOfDate c.date) (mktimeOfDate v.date))

/-- The gap-collection loop over the whole log. -/
def collectGaps : List Snapshot → Except VerifyError (List Int)
  | [] => .ok []
  | s :: rest =>
    match snapshotGap s with
    | .error e => .error e
    | .ok g =>
      match collectGaps rest with
      | .error e => .error e
      | .ok gs => .ok (g :: gs)

/-- `verify_2wk_window.main` on a parsed log: collect the gaps, sort them, and
assert `0 <= gaps[0]` and `gaps[-1] < two_weeks`.  The source divides each gap
by `sec_per_day` (exact float values here are exactly representable ratios)
before sorting and comparing with `14`; dividing by the positive constant is
strictly monotone, so we keep the gaps in seconds, sort them, and compare with
`14 * secPerDay` — the same order and the same assertion outcomes.  `gaps[0]` on
an empty log raises `IndexError`. -/
def verifier_main (log : List Snapshot) : Except VerifyError Unit :=
  match collectGaps log with
  | .error e => .error e
  | .ok gaps =>
    match List.insertionSort (· ≤ ·) gaps with
    | [] => .error .indexError
    | a :: rest =>
      if 0 ≤ a then
        if (a :: rest).getLast (List.cons_ne_nil a rest) < 14 * secPerDay then .ok ()
        else .error .assertionError
      else .error .assertionError

/-! ### Vocabulary used to state the claims -/

/-- The expanded day list of one snapshot for one metric, or `[]` if expansion
fails. -/
def expandOrNil (key : Snapshot → Metric) (window_days : Int) (obj : Snapshot) :
    List (Int × Pair) :=
  match each_day (key obj).daily obj.time window_days with
  | .ok l => l
  | .error _ => []

/-- All expanded observations of a snapshot list, in the order
`get_daily_stats` traverses them. -/
def obsStream (objs : List Snapshot) (key : Snapshot → Metric)
    (window_days : Int) : List (Int × Pair) :=
  objs.flatMap (expandOrNil key window_days)

/-- The first observed `(count, uniques)` pair for a date in an observation
stream. -/
def firstObs (s : List (Int × Pair)) (d : Int) : Option Pair :=
  (s.find? (fun e => decide (e.1 = d))).map Prod.snd

/-- Every snapshot's sparse list expands without error. -/
def allExpandOk (objs : List Snapshot) (key : Snapshot → Metric)
    (window_days : Int) : Prop :=
  ∀ obj ∈ objs, (each_day (key obj).daily obj.time window_days).isOk = true

/-- No two observations of the same date disagree. -/
def consistentStream (s : List (Int × Pair)) : Prop :=
  ∀ e1 ∈ s, ∀ e2 ∈ s, e1.1 = e2.1 → e1.2 = e2.2

instance decAllExpandOk (objs : List Snapshot) (key : Snapshot → Metric)
    (window_days : Int) : Decidable (allExpandOk objs key window_days) := by
  unfold allExpandOk
  infer_instance

instance decConsistentStream (s : List (Int × Pair)) :
    Decidable (consistentStream s) := by
  unfold consistentStream
  infer_instance

/-- The earliest (minimum) date in a sparse daily list (`0` for an empty
list).  This is the claims' notion of "earliest reported date"; the verifier
source instead reads `days[0]`. -/
def earliestDate (l : List DayObs) : Int :=
  match l with
  | [] => 0
  | d :: rest => rest.foldl (fun a b => min a b.date) d.date

/-- The claims' per-snapshot gap, in seconds: `fetch_time` minus midnight of
the earliest date reported in either metric's sparse list. -/
def claimGapSecs (s : Snapshot) : Int :=
  s.time - min (mktimeOfDate (earliestDate s.clones.daily))
               (mktimeOfDate (earliestDate s.views.daily))

/-- The dates of an expansion result (`[]` on error). -/
def expandedDatesOf (r : Except ProcessError (List (Int × Pair))) : List Int :=
  match r with
  | .ok l => l.map Prod.fst
  | .error _ => []

/-- Look up a date's value in an expansion result (`none` on error or when the
date has no entry). -/
def expandedLookup (r : Except ProcessError (List (Int × Pair))) (d : Int) :
    Option Pair :=
  match r with
  | .ok l => alookup d l
  | .error _ => none

/-- The point-series timestamps of a processing result (`[]` on error). -/
def pointTimesOf (r : Except ProcessError ProcessedRecord) : List Int :=
  match r with
  | .ok rcd => rcd.point.times
  | .error _ => []

/-- The association pair a sparse daily observation contributes to `ymd2pair`. -/
def dayEntry (day : DayObs) : Int × Pair := (day.date, (day.count, day.uniques))

/-! ### Concrete inputs used for witnesses and counterexamples -/

/-- A windowed metric with no recorded traffic. -/
def emptyMetric : Metric := { count := 0, uniques := 0, daily := [] }

/-- A well-formed snapshot of repository `b`, fetched at noon of day 100, with
no sparse traffic. -/
def exSnapB : Snapshot :=
  { time := noon_time_from_date 100, repo := "b", stars := 1, watchers := 2,
    forks := 3, clones := emptyMetric, views := emptyMetric }

/-- A malformed snapshot of repository `a`: its clones daily list repeats
day 90. -/
def exSnapDup : Snapshot :=
  { time := noon_time_from_date 100, repo := "a", stars := 0, watchers := 0,
    forks := 0,
    clones := { count := 3, uniques := 3, daily := [⟨90, 1, 1⟩, ⟨90, 2, 2⟩] },
    views := emptyMetric }

/-- A snapshot whose clones daily list is NOT in chronological order: the first
entry is day 90 but it also reports day 80, 15.5 days before its fetch time
(noon of day 95). -/
def exSnapVcex : Snapshot :=
  { time := noon_time_from_date 95, repo := "c", stars := 0, watchers := 0,
    forks := 0,
    clones := { count := 3, uniques := 3, daily := [⟨90, 1, 1⟩, ⟨80, 2, 2⟩] },
    views := { count := 1, uniques := 1, daily := [⟨90, 1, 1⟩] } }

/-- A snapshot with chronologically sorted daily lists whose gaps are within
two weeks (fetched at noon of day 95, earliest reported day 90). -/
def exSnapVgood : Snapshot :=
  { time := noon_time_from_date 95, repo := "g", stars := 0, watchers := 0,
    forks := 0,
    clones := { count := 3, uniques := 3, daily := [⟨90, 1, 1⟩, ⟨94, 2, 2⟩] },
    views := { count := 1, uniques := 1, daily := [⟨90, 1, 1⟩] } }

/-- A snapshot of repository `r` fetched at noon of day 200. -/
def exSnapT2 : Snapshot :=
  { time := noon_time_from_date 200, repo := "r", stars := 1, watchers := 1,
    forks := 1, clones := emptyMetric, views := emptyMetric }

/-- A snapshot of repository `r` fetched at noon of day 100 (earlier than
`exSnapT2`). -/
def exSnapT1 : Snapshot :=
  { time := noon_time_from_date 100, repo := "r", stars := 2, watchers := 2,
    forks := 2, clones := emptyMetric, views := emptyMetric }

/-- A snapshot reporting 5 clones by 7 cloners on day 98 (fetch at noon of
day 100, so day 98 is inside any window of length at least 4). -/
def exSnapC : Snapshot :=
  { time := noon_time_from_date 100, repo := "c1", stars := 0, watchers := 0,
    forks := 0,
    clones := { count := 5, uniques := 7, daily := [⟨98, 5, 7⟩] },
    views := emptyMetric }

/-- A snapshot reporting `(1, 1)` on day 98. -/
def exSnapX1 : Snapshot :=
  { time := noon_time_from_date 100, repo := "x", stars := 0, watchers := 0,
    forks := 0,
    clones := { count := 1, uniques := 1, daily := [⟨98, 1, 1⟩] },
    views := emptyMetric }

/-- A snapshot reporting `(2, 2)` on day 98 — conflicting with `exSnapX1`. -/
def exSnapX2 : Snapshot :=
  { time := noon_time_from_date 100, repo := "x", stars := 0, watchers := 0,
    forks := 0,
    clones := { count := 2, uniques := 2, daily := [⟨98, 2, 2⟩] },
    views := emptyMetric }

/-- A traffic-free snapshot fetched at noon of day 101. -/
def exSnapP2 : Snapshot :=
  { time := noon_time_from_date 101, repo := "p", stars := 0, watchers := 0,
    forks := 0, clones := emptyMetric, views := emptyMetric }

/-- The 11 dates of the 14-day window ending at a fetch at noon of day 100. -/
def exDates : List Int := [88, 89, 90, 91, 92, 93, 94, 95, 96, 97, 98]

/-- Eleven zero counts. -/
def exZeros : List Int := [0, 0, 0, 0, 0, 0, 0, 0, 0, 0, 0]

/-- An arbitrary processed record, used as pre-existing processed-directory
content. -/
def exStaleRecord : ProcessedRecord :=
  { repo := "stale", daily := ⟨[], [], [], [], [], []⟩, point := ⟨[], [], [], []⟩ }

/-! ### Basic lemmas: `date_range` and association-list lookup -/

theorem length_date_range (a b : Int) : (date_range a b).length = (b - a).toNat := by
  rw [date_range, List.length_map, List.length_range]

theorem mem_date_range {a b d : Int} : d ∈ date_range a b ↔ a ≤ d ∧ d < b := by
  simp only [date_range, List.mem_map, List.mem_range]
  constructor
  · rintro ⟨i, hi, rfl⟩
    omega
  · rintro ⟨h1, h2⟩
    exact ⟨(d - a).toNat, by omega, by omega⟩

theorem date_range_pairwise_lt (a b : Int) : (date_range a b).Pairwise (· < ·) := by
  apply (List.pairwise_map).mpr
  exact (List.pairwise_lt_range ((b - a).toNat)).imp (fun h => by omega)

theorem date_range_nodup (a b : Int) : (date_range a b).Nodup :=
  (date_range_pairwise_lt a b).imp (fun h => ne_of_lt h)

theorem alookup_append_some {d : Int} {l1 l2 : List (Int × Pair)} {v : Pair}
    (h : alookup d l1 = some v) : alookup d (l1 ++ l2) = some v := by
  induction l1 with
  | nil => simp [alookup] at h
  | cons e rest ih =>
    obtain ⟨k, w⟩ := e
    by_cases hd : d = k
    · subst hd
      simp only [alookup, if_pos rfl] at h
      simp only [List.cons_append, alookup, if_pos rfl]
      exact h
    · simp only [alookup, if_neg hd] at h
      simp only [List.cons_append, alookup, if_neg hd]
      exact ih h

theorem alookup_append_none {d : Int} {l1 l2 : List (Int × Pair)}
    (h : alookup d l1 = none) : alookup d (l1 ++ l2) = alookup d l2 := by
  induction l1 with
  | nil => simp
  | cons e rest ih =>
    obtain ⟨k, w⟩ := e
    by_cases hd : d = k
    · subst hd
      simp only [alookup, if_pos rfl] at h
      cases h
    · simp only [alookup, if_neg hd] at h
      simp only [List.cons_append, alookup, if_neg hd]
      exact ih h

theorem alookup_mem {d : Int} {v : Pair} {l : List (Int × Pair)}
    (h : alookup d l = some v) : (d, v) ∈ l := by
  induction l with
  | nil => simp [alookup] at h
  | cons e rest ih =>
    obtain ⟨k, w⟩ := e
    by_cases hd : d = k
    · subst hd
      have hw : w = v := by simpa [alookup] using h
      subst hw
      exact List.mem_cons_self _ _
    · simp only [alookup, if_neg hd] at h
      exact List.mem_cons_of_mem _ (ih h)

theorem alookup_eq_none {d : Int} {l : List (Int × Pair)} :
    alookup d l = none ↔ d ∉ l.map Prod.fst := by
  induction l with
  | nil => simp [alookup]
  | cons e rest ih =>
    obtain ⟨k, w⟩ := e
    by_cases hd : d = k
    · subst hd
      simp [alookup]
    · simp [alookup, if_neg hd, ih, hd]

theorem alookup_exists_of_mem {d : Int} {v : Pair} {l : List (Int × Pair)}
    (h : (d, v) ∈ l) : ∃ w, alookup d l = some w := by
  induction l with
  | nil => simp at h
  | cons e rest ih =>
    obtain ⟨k, w⟩ := e
    by_cases hd : d = k
    · exact ⟨w, by simp [alookup, hd]⟩
    · rcases List.mem_cons.mp h with h1 | h1
      · cases h1; exact absurd rfl hd
      · obtain ⟨u, hu⟩ := ih h1
        exact ⟨u, by simpa [alookup, if_neg hd] using hu⟩

theorem alookup_of_mem_nodup {d : Int} {v : Pair} {l : List (Int × Pair)}
    (hn : (l.map Prod.fst).Nodup) (h : (d, v) ∈ l) : alookup d l = some v := by
  induction l with
  | nil => simp at h
  | cons e rest ih =>
    obtain ⟨k, w⟩ := e
    simp only [List.map_cons, List.nodup_cons] at hn
    rcases List.mem_cons.mp h with h1 | h1
    · cases h1
      simp [alookup]
    · by_cases hd : d = k
      · subst hd
        exact absurd (List.mem_map_of_mem Prod.fst h1) hn.1
      · simp only [alookup, if_neg hd]
        exact ih hn.2 h1

theorem alookup_map_graph {f : Int → Pair} {l : List Int} {d : Int} (h : d ∈ l) :
    alookup d (l.map (fun x => (x, f x))) = some (f d) := by
  induction l with
  | nil => simp at h
  | cons a rest ih =>
    by_cases hd : d = a
    · subst hd
      simp [alookup]
    · rcases List.mem_cons.mp h with h1 | h1
      · exact absurd h1 hd
      · simp only [List.map_cons, alookup, if_neg hd]
        exact ih h1

theorem alookup_map_graph_none {f : Int → Pair} {l : List Int} {d : Int} (h : d ∉ l) :
    alookup d (l.map (fun x => (x, f x))) = none := by
  induction l with
  | nil => simp [alookup]
  | cons a rest ih =>
    have hd : d ≠ a := fun hc => h (hc ▸ List.mem_cons_self a rest)
    simp only [List.map_cons, alookup, if_neg hd]
    exact ih (fun hc => h (List.mem_cons_of_mem _ hc))

/-! ### Lemmas about `buildDayMap` and `each_day` (the Window Expander) -/

theorem buildDayMap_ok_eq : ∀ {days : List DayObs} {acc m : List (Int × Pair)},
    buildDayMap acc days = .ok m → m = acc ++ days.map dayEntry := by
  intro days
  induction days with
  | nil =>
    intro acc m h
    simp only [buildDayMap] at h
    cases h
    simp
  | cons day rest ih =>
    intro acc m h
    simp only [buildDayMap] at h
    cases hl : alookup day.date acc with
    | some v => rw [hl] at h; cases h
    | none =>
      rw [hl] at h
      have := ih h
      simpa [dayEntry, List.append_assoc] using this

theorem buildDayMap_ok_of_nodup : ∀ {days : List DayObs} {acc : List (Int × Pair)},
    (acc.map Prod.fst ++ days.map DayObs.date).Nodup →
    buildDayMap acc days = .ok (acc ++ days.map dayEntry) := by
  intro days
  induction days with
  | nil =>
    intro acc _
    simp [buildDayMap]
  | cons day rest ih =>
    intro acc hn
    have hmem : day.date ∉ acc.map Prod.fst := by
      intro hc
      have : ¬ (acc.map Prod.fst ++ (day :: rest).map DayObs.date).Nodup := by
        intro hnd
        have := List.disjoint_of_nodup_append hnd
        exact this hc (by simp)
      exact this hn
    have hl : alookup day.date acc = none := alookup_eq_none.mpr hmem
    simp only [buildDayMap, hl]
    have hn2 : ((acc ++ [dayEntry day]).map Prod.fst ++ rest.map DayObs.date).Nodup := by
      simp only [List.map_append, List.map_cons, List.append_assoc] at hn ⊢
      simpa [dayEntry] using hn
    have := ih hn2
    simpa [List.append_assoc, dayEntry] using this

theorem buildDayMap_error_of_dup : ∀ {days : List DayObs} {acc : List (Int × Pair)},
    (acc.map Prod.fst).Nodup →
    ¬ (acc.map Prod.fst ++ days.map DayObs.date).Nodup →
    ∃ d, buildDayMap acc days = .error (.duplicateDayError d) := by
  intro days
  induction days with
  | nil =>
    intro acc h1 h2
    simp at h2
    exact absurd h1 h2
  | cons day rest ih =>
    intro acc h1 h2
    cases hl : alookup day.date acc with
    | some v => exact ⟨day.date, by simp [buildDayMap, hl]⟩
    | none =>
      have hmem : day.date ∉ acc.map Prod.fst := alookup_eq_none.mp hl
      have h1' : ((acc ++ [dayEntry day]).map Prod.fst).Nodup := by
        simp only [List.map_append]
        simpa [dayEntry, List.nodup_append] using ⟨h1, by simpa using hmem⟩
      have h2' : ¬ (((acc ++ [dayEntry day]).map Prod.fst) ++ rest.map DayObs.date).Nodup := by
        intro hc
        apply h2
        simp only [List.map_append, List.map_cons, List.append_assoc] at hc ⊢
        simpa [dayEntry] using hc
      obtain ⟨d, hd⟩ := ih h1' h2'
      exact ⟨d, by simpa [buildDayMap, hl] using hd⟩

theorem each_day_ok_eq {days : List DayObs} {T W : Int} {out : List (Int × Pair)}
    (h : each_day days T W = .ok out) :
    out = (date_range (dateOfTime T - (W - 2)) (dateOfTime T - 1)).map
      (fun d => (d, lookupD (days.map dayEntry) d)) := by
  unfold each_day at h
  cases hb : buildDayMap [] days with
  | error e => rw [hb] at h; cases h
  | ok m =>
    rw [hb] at h
    have hm := buildDayMap_ok_eq hb
    simp only [List.nil_append] at hm
    subst hm
    cases h
    rfl

theorem map_fst_graph (f : Int → Pair) (l : List Int) :
    (l.map (fun x => (x, f x))).map Prod.fst = l := by
  induction l with
  | nil => rfl
  | cons a rest ih => simp only [List.map_cons, ih]

theorem each_day_ok_dates {days : List DayObs} {T W : Int} {out : List (Int × Pair)}
    (h : each_day days T W = .ok out) :
    out.map Prod.fst = date_range (dateOfTime T - (W - 2)) (dateOfTime T - 1) := by
  rw [each_day_ok_eq h, map_fst_graph]

theorem each_day_ok_of_nodup {days : List DayObs} {T W : Int}
    (h : (days.map DayObs.date).Nodup) :
    each_day days T W = .ok ((date_range (dateOfTime T - (W - 2)) (dateOfTime T - 1)).map
      (fun d => (d, lookupD (days.map dayEntry) d))) := by
  unfold each_day
  have h2 := @buildDayMap_ok_of_nodup days [] (by simpa using h)
  rw [h2]
  simp

theorem each_day_error_of_dup {days : List DayObs} {T W : Int}
    (h : ¬ (days.map DayObs.date).Nodup) :
    ∃ d, each_day days T W = .error (.duplicateDayError d) := by
  obtain ⟨d, hd⟩ := @buildDayMap_error_of_dup days []
    (by simp) (by simpa using h)
  exact ⟨d, by unfold each_day; rw [hd]⟩

/-! ### Lemmas about the `get_daily_stats` merge (the Reconciler) -/

theorem except_isOk_iff {ε α : Type} {x : Except ε α} :
    x.isOk = true ↔ ∃ a, x = .ok a := by
  cases x with
  | ok a => simp [Except.isOk, Except.toBool]
  | error e => simp [Except.isOk, Except.toBool]

theorem mergeEntries_append (t s : List (Int × Pair)) : ∀ m,
    mergeEntries m (s ++ t) =
      match mergeEntries m s with
      | .ok m2 => mergeEntries m2 t
      | .error e => .error e := by
  induction s with
  | nil => intro m; rfl
  | cons e rest ih =>
    intro m
    obtain ⟨d, p⟩ := e
    cases hl : alookup d m with
    | none =>
      simp only [List.cons_append, mergeEntries, hl]
      exact ih _
    | some q =>
      by_cases hq : q = p
      · simp only [List.cons_append, mergeEntries, hl, if_pos hq]
        exact ih _
      · simp only [List.cons_append, mergeEntries, hl, if_neg hq]

theorem mergeEntries_preserve {s : List (Int × Pair)} : ∀ {m m2 : List (Int × Pair)},
    mergeEntries m s = .ok m2 → ∀ {d : Int} {q : Pair},
    alookup d m = some q → alookup d m2 = some q := by
  induction s with
  | nil =>
    intro m m2 h d q hq
    cases h
    exact hq
  | cons e rest ih =>
    intro m m2 h d q hq
    obtain ⟨d0, p0⟩ := e
    cases hl : alookup d0 m with
    | none =>
      simp only [mergeEntries, hl] at h
      exact ih h (alookup_append_some hq)
    | some q0 =>
      by_cases h0 : q0 = p0
      · simp only [mergeEntries, hl, if_pos h0] at h
        exact ih h hq
      · simp only [mergeEntries, hl, if_neg h0] at h
        cases h

theorem mergeEntries_mem {s : List (Int × Pair)} : ∀ {m m2 : List (Int × Pair)},
    mergeEntries m s = .ok m2 → ∀ {d : Int} {p : Pair},
    (d, p) ∈ s → alookup d m2 = some p := by
  induction s with
  | nil =>
    intro m m2 _ d p hp
    simp at hp
  | cons e rest ih =>
    intro m m2 h d p hp
    obtain ⟨d0, p0⟩ := e
    cases hl : alookup d0 m with
    | none =>
      simp only [mergeEntries, hl] at h
      rcases List.mem_cons.mp hp with h1 | h1
      · obtain ⟨hd, hp0⟩ := Prod.mk.injEq .. ▸ h1
        subst hd
        subst hp0
        refine mergeEntries_preserve h ?_
        rw [alookup_append_none hl]
        simp [alookup]
      · exact ih h h1
    | some q0 =>
      by_cases h0 : q0 = p0
      · simp only [mergeEntries, hl, if_pos h0] at h
        rcases List.mem_cons.mp hp with h1 | h1
        · obtain ⟨hd, hp0⟩ := Prod.mk.injEq .. ▸ h1
          subst hd
          subst hp0
          subst h0
          exact mergeEntries_preserve h hl
        · exact ih h h1
      · simp only [mergeEntries, hl, if_neg h0] at h
        cases h

theorem mergeEntries_lookup_src {s : List (Int × Pair)} : ∀ {m m2 : List (Int × Pair)},
    mergeEntries m s = .ok m2 → ∀ {d : Int} {p : Pair},
    alookup d m2 = some p → alookup d m = some p ∨ (d, p) ∈ s := by
  induction s with
  | nil =>
    intro m m2 h d p hp
    cases h
    exact Or.inl hp
  | cons e rest ih =>
    intro m m2 h d p hp
    obtain ⟨d0, p0⟩ := e
    cases hl : alookup d0 m with
    | none =>
      simp only [mergeEntries, hl] at h
      rcases ih h hp with h1 | h1
      · cases hm : alookup d m with
        | some q =>
          rw [alookup_append_some hm] at h1
          injection h1 with hqp
          subst hqp
          exact Or.inl rfl
        | none =>
          rw [alookup_append_none hm] at h1
          by_cases hd : d = d0
          · subst hd
            obtain rfl : p0 = p := by simpa [alookup] using h1
            exact Or.inr (List.mem_cons_self _ _)
          · simp [alookup, if_neg hd] at h1
      · exact Or.inr (List.mem_cons_of_mem _ h1)
    | some q0 =>
      by_cases h0 : q0 = p0
      · simp only [mergeEntries, hl, if_pos h0] at h
        rcases ih h hp with h1 | h1
        · exact Or.inl h1
        · exact Or.inr (List.mem_cons_of_mem _ h1)
      · simp only [mergeEntries, hl, if_neg h0] at h
        cases h

theorem mergeEntries_keys_nodup {s : List (Int × Pair)} : ∀ {m m2 : List (Int × Pair)},
    (m.map Prod.fst).Nodup → mergeEntries m s = .ok m2 → (m2.map Prod.fst).Nodup := by
  induction s with
  | nil =>
    intro m m2 hn h
    cases h
    exact hn
  | cons e rest ih =>
    intro m m2 hn h
    obtain ⟨d0, p0⟩ := e
    cases hl : alookup d0 m with
    | none =>
      simp only [mergeEntries, hl] at h
      refine ih ?_ h
      rw [List.map_append]
      refine List.Nodup.append hn (by simp) ?_
      intro a ha hb
      simp only [List.map_cons, List.map_nil, List.mem_singleton] at hb
      subst hb
      exact absurd ha (alookup_eq_none.mp hl)
    | some q0 =>
      by_cases h0 : q0 = p0
      · simp only [mergeEntries, hl, if_pos h0] at h
        exact ih hn h
      · simp only [mergeEntries, hl, if_neg h0] at h
        cases h

theorem mergeEntries_ok_of_consistent {s : List (Int × Pair)} : ∀ {m : List (Int × Pair)},
    (∀ d p q, alookup d m = some q → (d, p) ∈ s → q = p) →
    (∀ e1 ∈ s, ∀ e2 ∈ s, e1.1 = e2.1 → e1.2 = e2.2) →
    ∃ m2, mergeEntries m s = .ok m2 := by
  induction s with
  | nil =>
    intro m _ _
    exact ⟨m, rfl⟩
  | cons e rest ih =>
    intro m h1 h2
    obtain ⟨d0, p0⟩ := e
    cases hl : alookup d0 m with
    | none =>
      have h1' : ∀ d p q, alookup d (m ++ [(d0, p0)]) = some q → (d, p) ∈ rest → q = p := by
        intro d p q hq hp
        cases hm : alookup d m with
        | some q1 =>
          rw [alookup_append_some hm] at hq
          cases hq
          exact h1 d p q hm (List.mem_cons_of_mem _ hp)
        | none =>
          rw [alookup_append_none hm] at hq
          by_cases hd : d = d0
          · subst hd
            obtain rfl : p0 = q := by simpa [alookup] using hq
            exact h2 (d, p0) (List.mem_cons_self _ _) (d, p) (List.mem_cons_of_mem _ hp) rfl
          · simp [alookup, if_neg hd] at hq
      have h2' : ∀ e1 ∈ rest, ∀ e2 ∈ rest, e1.1 = e2.1 → e1.2 = e2.2 := by
        intro e1 he1 e2 he2
        exact h2 e1 (List.mem_cons_of_mem _ he1) e2 (List.mem_cons_of_mem _ he2)
      obtain ⟨m2, hm2⟩ := ih h1' h2'
      exact ⟨m2, by simp only [mergeEntries, hl]; exact hm2⟩
    | some q0 =>
      have h0 : q0 = p0 := h1 d0 p0 q0 hl (List.mem_cons_self _ _)
      have h1' : ∀ d p q, alookup d m = some q → (d, p) ∈ rest → q = p := by
        intro d p q hq hp
        exact h1 d p q hq (List.mem_cons_of_mem _ hp)
      have h2' : ∀ e1 ∈ rest, ∀ e2 ∈ rest, e1.1 = e2.1 → e1.2 = e2.2 := by
        intro e1 he1 e2 he2
        exact h2 e1 (List.mem_cons_of_mem _ he1) e2 (List.mem_cons_of_mem _ he2)
      obtain ⟨m2, hm2⟩ := ih h1' h2'
      exact ⟨m2, by simp only [mergeEntries, hl, if_pos h0]; exact hm2⟩

theorem mergeEntries_error_conflict {s : List (Int × Pair)} : ∀ {m : List (Int × Pair)}
    {e : ProcessError}, mergeEntries m s = .error e →
    ∃ d p q, q ≠ p ∧ e = .reconciliationConflictError d q p := by
  induction s with
  | nil =>
    intro m e h
    cases h
  | cons x rest ih =>
    intro m e h
    obtain ⟨d0, p0⟩ := x
    cases hl : alookup d0 m with
    | none =>
      simp only [mergeEntries, hl] at h
      exact ih h
    | some q0 =>
      by_cases h0 : q0 = p0
      · simp only [mergeEntries, hl, if_pos h0] at h
        exact ih h
      · simp only [mergeEntries, hl, if_neg h0] at h
        cases h
        exact ⟨d0, p0, q0, h0, rfl⟩

theorem mergeObjs_ok_expand {key : Snapshot → Metric} {W : Int} :
    ∀ {objs : List Snapshot} {m m2 : List (Int × Pair)},
    mergeObjs key W m objs = .ok m2 → allExpandOk objs key W := by
  intro objs
  induction objs with
  | nil =>
    intro m m2 _ obj hobj
    simp at hobj
  | cons obj rest ih =>
    intro m m2 h o ho
    cases he : each_day (key obj).daily obj.time W with
    | error e =>
      simp only [mergeObjs, he] at h
      cases h
    | ok entries =>
      simp only [mergeObjs, he] at h
      cases hm : mergeEntries m entries with
      | error e => rw [hm] at h; cases h
      | ok m3 =>
        rw [hm] at h
        rcases List.mem_cons.mp ho with h1 | h1
        · subst h1
          rw [he]
          rfl
        · exact ih h o h1

theorem mergeObjs_eq {key : Snapshot → Metric} {W : Int} :
    ∀ {objs : List Snapshot} {m : List (Int × Pair)}, allExpandOk objs key W →
    mergeObjs key W m objs = mergeEntries m (obsStream objs key W) := by
  intro objs
  induction objs with
  | nil => intro m _; rfl
  | cons obj rest ih =>
    intro m hok
    obtain ⟨entries, he⟩ := except_isOk_iff.mp (hok obj (List.mem_cons_self _ _))
    have hrest : allExpandOk rest key W :=
      fun o ho => hok o (List.mem_cons_of_mem _ ho)
    have hstream : obsStream (obj :: rest) key W = entries ++ obsStream rest key W := by
      simp only [obsStream, List.flatMap_cons, expandOrNil, he]
    rw [hstream, mergeEntries_append]
    cases hm : mergeEntries m entries with
    | error e =>
      simp only [mergeObjs, he, hm]
    | ok m2 =>
      simp only [mergeObjs, he, hm]
      exact ih hrest

theorem get_daily_stats_ok_elim {objs : List Snapshot} {key : Snapshot → Metric} {W : Int}
    {dates counts uniques : List Int}
    (h : get_daily_stats objs key W = .ok (dates, counts, uniques)) :
    ∃ m, mergeObjs key W [] objs = .ok m ∧
      dates = List.insertionSort (· ≤ ·) (m.map Prod.fst) ∧
      counts = (dates.map (fun d => lookupD m d)).map Prod.fst ∧
      uniques = (dates.map (fun d => lookupD m d)).map Prod.snd ∧
      dates ≠ [] := by
  unfold get_daily_stats at h
  cases hmo : mergeObjs key W [] objs with
  | error e => rw [hmo] at h; cases h
  | ok m =>
    rw [hmo] at h
    simp only at h
    refine ⟨m, rfl, ?_⟩
    cases hp : (List.insertionSort (· ≤ ·) (m.map Prod.fst)).map
        (fun d => lookupD m d) with
    | nil => rw [hp] at h; cases h
    | cons x xs =>
      rw [hp] at h
      injection h with h1
      obtain ⟨hd, hrest⟩ := Prod.mk.injEq .. ▸ h1
      obtain ⟨hc, hu⟩ := Prod.mk.injEq .. ▸ hrest
      subst hd
      subst hc
      subst hu
      refine ⟨rfl, by rw [hp], by rw [hp], ?_⟩
      intro hnil
      rw [hnil] at hp
      simp at hp

theorem get_daily_stats_error_elim {objs : List Snapshot} {key : Snapshot → Metric} {W : Int}
    {e : ProcessError} (hok : allExpandOk objs key W)
    (h : get_daily_stats objs key W = .error e) :
    e = .emptySeriesError ∨
      ∃ d p q, q ≠ p ∧ e = .reconciliationConflictError d q p := by
  unfold get_daily_stats at h
  cases hmo : mergeObjs key W [] objs with
  | error e2 =>
    rw [hmo] at h
    injection h with h1
    subst h1
    rw [mergeObjs_eq hok] at hmo
    exact Or.inr (mergeEntries_error_conflict hmo)
  | ok m =>
    rw [hmo] at h
    simp only at h
    cases hp : (List.insertionSort (· ≤ ·) (m.map Prod.fst)).map
        (fun d => lookupD m d) with
    | nil =>
      rw [hp] at h
      injection h with h1
      exact Or.inl h1.symm
    | cons x xs => rw [hp] at h; cases h

theorem insertionSort_eq_of_mem_iff {l1 l2 : List Int} (h1 : l1.Nodup) (h2 : l2.Nodup)
    (hm : ∀ a, a ∈ l1 ↔ a ∈ l2) :
    List.insertionSort (· ≤ ·) l1 = List.insertionSort (· ≤ ·) l2 := by
  refine List.eq_of_perm_of_sorted ?_ (List.sorted_insertionSort _ l1)
    (List.sorted_insertionSort _ l2)
  exact ((List.perm_insertionSort _ l1).trans
    ((List.perm_ext_iff_of_nodup h1 h2).mpr hm)).trans
    (List.perm_insertionSort _ l2).symm

theorem dayEntry_keys (days : List DayObs) :
    (days.map dayEntry).map Prod.fst = days.map DayObs.date := by
  induction days with
  | nil => rfl
  | cons day rest ih => simp only [List.map_cons, ih, dayEntry]

theorem zip_map_fst_snd (l : List Pair) :
    (l.map Prod.fst).zip (l.map Prod.snd) = l := by
  induction l with
  | nil => rfl
  | cons x xs ih => simp [ih]

theorem zip_self_map (l : List Int) (f : Int → Pair) :
    l.zip (l.map f) = l.map (fun d => (d, f d)) := by
  induction l with
  | nil => rfl
  | cons x xs ih => simp [ih]

theorem mem_keys_iff_alookup {d : Int} {l : List (Int × Pair)} :
    d ∈ l.map Prod.fst ↔ alookup d l ≠ none := by
  constructor
  · intro h hc
    exact (alookup_eq_none.mp hc) h
  · intro hne
    by_contra hnm
    exact hne (alookup_eq_none.mpr hnm)

theorem eq_of_mem_keys_nodup {l : List (Int × Pair)} (hn : (l.map Prod.fst).Nodup)
    {e1 e2 : Int × Pair} (h1 : e1 ∈ l) (h2 : e2 ∈ l) (he : e1.1 = e2.1) : e1 = e2 := by
  have k1 : alookup e1.1 l = some e1.2 := alookup_of_mem_nodup hn (by simpa using h1)
  have k2 : alookup e2.1 l = some e2.2 := alookup_of_mem_nodup hn (by simpa using h2)
  rw [he, k2] at k1
  injection k1 with hv
  exact Prod.ext he hv.symm

theorem get_daily_stats_of_merge {objs : List Snapshot} {key : Snapshot → Metric}
    {W : Int} {m : List (Int × Pair)} (h : mergeObjs key W [] objs = .ok m) :
    get_daily_stats objs key W =
      match (List.insertionSort (· ≤ ·) (m.map Prod.fst)).map (fun d => lookupD m d) with
      | [] => .error .emptySeriesError
      | _ => .ok (List.insertionSort (· ≤ ·) (m.map Prod.fst),
          ((List.insertionSort (· ≤ ·) (m.map Prod.fst)).map
            (fun d => lookupD m d)).map Prod.fst,
          ((List.insertionSort (· ≤ ·) (m.map Prod.fst)).map
            (fun d => lookupD m d)).map Prod.snd) := by
  unfold get_daily_stats
  rw [h]

theorem get_daily_stats_ext {objs1 objs2 : List Snapshot} {key1 key2 : Snapshot → Metric}
    {W1 W2 : Int} (h1 : allExpandOk objs1 key1 W1) (h2 : allExpandOk objs2 key2 W2)
    (hcon : consistentStream (obsStream objs1 key1 W1))
    (hmem : ∀ e, e ∈ obsStream objs1 key1 W1 ↔ e ∈ obsStream objs2 key2 W2) :
    get_daily_stats objs1 key1 W1 = get_daily_stats objs2 key2 W2 := by
  have hcon2 : consistentStream (obsStream objs2 key2 W2) := by
    intro e1 he1 e2 he2
    exact hcon e1 ((hmem e1).mpr he1) e2 ((hmem e2).mpr he2)
  obtain ⟨m1, hm1⟩ := @mergeEntries_ok_of_consistent _ []
    (by intro d p q hq _; simp [alookup] at hq) hcon
  obtain ⟨m2, hm2⟩ := @mergeEntries_ok_of_consistent _ []
    (by intro d p q hq _; simp [alookup] at hq) hcon2
  have hlook : ∀ d, alookup d m1 = alookup d m2 := by
    intro d
    cases hv : alookup d m1 with
    | some p =>
      rcases mergeEntries_lookup_src hm1 hv with hx | hx
      · simp [alookup] at hx
      · exact (mergeEntries_mem hm2 ((hmem _).mp hx)).symm
    | none =>
      cases hw : alookup d m2 with
      | none => rfl
      | some q =>
        rcases mergeEntries_lookup_src hm2 hw with hx | hx
        · simp [alookup] at hx
        · rw [mergeEntries_mem hm1 ((hmem _).mpr hx)] at hv
          cases hv
  have hn1 : (m1.map Prod.fst).Nodup := mergeEntries_keys_nodup (by simp) hm1
  have hn2 : (m2.map Prod.fst).Nodup := mergeEntries_keys_nodup (by simp) hm2
  have hkeys : ∀ d, d ∈ m1.map Prod.fst ↔ d ∈ m2.map Prod.fst := by
    intro d
    rw [mem_keys_iff_alookup, mem_keys_iff_alookup, hlook d]
  have hsort : List.insertionSort (· ≤ ·) (m1.map Prod.fst)
      = List.insertionSort (· ≤ ·) (m2.map Prod.fst) :=
    insertionSort_eq_of_mem_iff hn1 hn2 hkeys
  have hfun : (fun d => lookupD m1 d) = fun d => lookupD m2 d :=
    funext fun d => by rw [lookupD, lookupD, hlook d]
  have hmo1 : mergeObjs key1 W1 [] objs1 = .ok m1 := by
    rw [mergeObjs_eq h1]
    exact hm1
  have hmo2 : mergeObjs key2 W2 [] objs2 = .ok m2 := by
    rw [mergeObjs_eq h2]
    exact hm2
  rw [get_daily_stats_of_merge hmo1, get_daily_stats_of_merge hmo2, hsort, hfun]

theorem buildDayMap_error_shape : ∀ {days : List DayObs} {acc : List (Int × Pair)}
    {e : ProcessError}, buildDayMap acc days = .error e →
    ∃ d, e = .duplicateDayError d := by
  intro days
  induction days with
  | nil =>
    intro acc e h
    cases h
  | cons day rest ih =>
    intro acc e h
    cases hl : alookup day.date acc with
    | some v =>
      simp only [buildDayMap, hl] at h
      injection h with h1
      exact ⟨day.date, h1.symm⟩
    | none =>
      simp only [buildDayMap, hl] at h
      exact ih h

theorem each_day_error_shape {days : List DayObs} {T W : Int} {e : ProcessError}
    (h : each_day days T W = .error e) : ∃ d, e = .duplicateDayError d := by
  unfold each_day at h
  cases hb : buildDayMap [] days with
  | error e2 =>
    rw [hb] at h
    injection h with h1
    subst h1
    exact buildDayMap_error_shape hb
  | ok m =>
    rw [hb] at h
    simp at h

theorem mergeObjs_error_shape {key : Snapshot → Metric} {W : Int} :
    ∀ {objs : List Snapshot} {m : List (Int × Pair)} {e : ProcessError},
    mergeObjs key W m objs = .error e →
    (∃ d, e = .duplicateDayError d)
    ∨ (∃ d p q, q ≠ p ∧ e = .reconciliationConflictError d q p) := by
  intro objs
  induction objs with
  | nil =>
    intro m e h
    cases h
  | cons obj rest ih =>
    intro m e h
    cases he : each_day (key obj).daily obj.time W with
    | error e2 =>
      simp only [mergeObjs, he] at h
      injection h with h1
      subst h1
      exact Or.inl (each_day_error_shape he)
    | ok entries =>
      simp only [mergeObjs, he] at h
      cases hm : mergeEntries m entries with
      | error e2 =>
        rw [hm] at h
        injection h with h1
        subst h1
        exact Or.inr (mergeEntries_error_conflict hm)
      | ok m2 =>
        rw [hm] at h
        exact ih h

theorem gds_error_shape {objs : List Snapshot} {key : Snapshot → Metric} {W : Int}
    {e : ProcessError} (h : get_daily_stats objs key W = .error e) :
    (∃ d, e = .duplicateDayError d)
    ∨ (∃ d p q, q ≠ p ∧ e = .reconciliationConflictError d q p)
    ∨ e = .emptySeriesError := by
  unfold get_daily_stats at h
  cases hmo : mergeObjs key W [] objs with
  | error e2 =>
    rw [hmo] at h
    injection h with h1
    subst h1
    rcases mergeObjs_error_shape hmo with h2 | h2
    · exact Or.inl h2
    · exact Or.inr (Or.inl h2)
  | ok m =>
    rw [hmo] at h
    simp only at h
    cases hp : (List.insertionSort (· ≤ ·) (m.map Prod.fst)).map
        (fun d => lookupD m d) with
    | nil =>
      rw [hp] at h
      injection h with h1
      exact Or.inr (Or.inr h1.symm)
    | cons x xs =>
      rw [hp] at h
      cases h

theorem merged_keys_iff {objs : List Snapshot} {key : Snapshot → Metric} {W : Int}
    {m : List (Int × Pair)} (hok : allExpandOk objs key W)
    (hm : mergeObjs key W [] objs = .ok m) (d : Int) :
    d ∈ m.map Prod.fst ↔ ∃ obj ∈ objs,
      d ∈ date_range (dateOfTime obj.time - (W - 2)) (dateOfTime obj.time - 1) := by
  have hme : mergeEntries [] (obsStream objs key W) = .ok m := by
    rw [← mergeObjs_eq hok]
    exact hm
  constructor
  · intro hd
    obtain ⟨v, hv⟩ : ∃ v, alookup d m = some v := by
      cases hv : alookup d m with
      | none => exact absurd hd (alookup_eq_none.mp hv)
      | some v => exact ⟨v, rfl⟩
    rcases mergeEntries_lookup_src hme hv with hx | hx
    · simp [alookup] at hx
    · obtain ⟨obj, ho, he⟩ := List.mem_flatMap.mp hx
      refine ⟨obj, ho, ?_⟩
      obtain ⟨l, hl⟩ := except_isOk_iff.mp (hok obj ho)
      rw [← each_day_ok_dates hl]
      simp only [expandOrNil, hl] at he
      exact List.mem_map_of_mem Prod.fst he
  · rintro ⟨obj, ho, hd⟩
    obtain ⟨l, hl⟩ := except_isOk_iff.mp (hok obj ho)
    rw [← each_day_ok_dates hl] at hd
    obtain ⟨e2, he2, hed⟩ := List.mem_map.mp hd
    have hin : (d, e2.2) ∈ obsStream objs key W := by
      apply List.mem_flatMap.mpr
      refine ⟨obj, ho, ?_⟩
      simp only [expandOrNil, hl]
      rw [← hed]
      simpa using he2
    have := mergeEntries_mem hme hin
    exact mem_keys_iff_alookup.mpr (by rw [this]; exact Option.some_ne_none _)

theorem get_point_stats_eq (objs : List Snapshot) (key : Snapshot → Int) :
    get_point_stats objs key = (objs.map Snapshot.time, objs.map key) := by
  have aux : ∀ (l : List Snapshot) (a b : List Int),
      l.foldl (fun acc obj => (acc.1 ++ [obj.time], acc.2 ++ [key obj])) (a, b)
        = (a ++ l.map Snapshot.time, b ++ l.map key) := by
    intro l
    induction l with
    | nil =>
      intro a b
      simp
    | cons s rest ih =>
      intro a b
      simp only [List.foldl_cons, List.map_cons]
      rw [ih]
      simp
  unfold get_point_stats
  rw [aux]
  simp

theorem le_getLast?_of_sorted : ∀ {l : List Int}, l.Sorted (· ≤ ·) →
    ∀ {b : Int}, l.getLast? = some b → ∀ {x : Int}, x ∈ l → x ≤ b := by
  intro l
  induction l with
  | nil =>
    intro _ b hb
    cases hb
  | cons a t ih =>
    intro hs b hb x hx
    cases t with
    | nil =>
      obtain rfl : a = b := by simpa using hb
      have hxa : x = a := by simpa using hx
      subst hxa
      exact le_refl x
    | cons c t2 =>
      rw [List.getLast?_cons_cons] at hb
      rcases List.mem_cons.mp hx with rfl | hx2
      · have hbm : b ∈ c :: t2 := by
          obtain ⟨hne2, hbeq⟩ := List.mem_getLast?_eq_getLast (Option.mem_def.mpr hb)
          rw [hbeq]
          exact List.getLast_mem hne2
        exact (List.sorted_cons.mp hs).1 b hbm
      · exact ih (List.sorted_cons.mp hs).2 hb hx2

theorem foldl_min_eq : ∀ {l : List DayObs} {a : Int}, (∀ b ∈ l, a ≤ b.date) →
    l.foldl (fun x b => min x b.date) a = a := by
  intro l
  induction l with
  | nil =>
    intro a _
    rfl
  | cons c t ih =>
    intro a h
    simp only [List.foldl_cons]
    rw [min_eq_left (h c (List.mem_cons_self _ _))]
    exact ih (fun b hb => h b (List.mem_cons_of_mem _ hb))

theorem earliestDate_sorted_head {d : DayObs} {rest : List DayObs}
    (hs : ((d :: rest).map DayObs.date).Sorted (· ≤ ·)) :
    earliestDate (d :: rest) = d.date := by
  simp only [List.map_cons] at hs
  unfold earliestDate
  exact foldl_min_eq (fun b hb =>
    (List.sorted_cons.mp hs).1 b.date (List.mem_map_of_mem DayObs.date hb))

theorem snapshotGap_eq_claim {s : Snapshot}
    (hc : s.clones.daily ≠ []) (hv : s.views.daily ≠ [])
    (hsc : (s.clones.daily.map DayObs.date).Sorted (· ≤ ·))
    (hsv : (s.views.daily.map DayObs.date).Sorted (· ≤ ·)) :
    snapshotGap s = .ok (claimGapSecs s) := by
  cases hcl : s.clones.daily with
  | nil => exact absurd hcl hc
  | cons c crest =>
    cases hvl : s.views.daily with
    | nil => exact absurd hvl hv
    | cons v vrest =>
      rw [hcl] at hsc
      rw [hvl] at hsv
      unfold snapshotGap claimGapSecs
      rw [hcl, hvl, earliestDate_sorted_head hsc, earliestDate_sorted_head hsv]

theorem collectGaps_eq : ∀ {log : List Snapshot},
    (∀ s ∈ log, s.clones.daily ≠ [] ∧ s.views.daily ≠ []
      ∧ (s.clones.daily.map DayObs.date).Sorted (· ≤ ·)
      ∧ (s.views.daily.map DayObs.date).Sorted (· ≤ ·)) →
    collectGaps log = .ok (log.map claimGapSecs) := by
  intro log
  induction log with
  | nil =>
    intro _
    rfl
  | cons s rest ih =>
    intro hd
    obtain ⟨h1, h2, h3, h4⟩ := hd s (List.mem_cons_self _ _)
    have ih2 := ih (fun t ht => hd t (List.mem_cons_of_mem _ ht))
    simp only [collectGaps, snapshotGap_eq_claim h1 h2 h3 h4, ih2, List.map_cons]

/-! ### Claim theorems -/

/-- C2: for every sparse daily list, fetch time `T` and window length `W`, when
expansion succeeds its output has exactly one entry per calendar day in the
half-open span `[date(T) - (W - 2), date(T) - 1)`, in chronological order with
no duplicates and no gaps (hence exactly `W - 3` entries when `W ≥ 3`),
excluding the fetch day itself and the day before it. -/
theorem window_expander_span (days : List DayObs) (T W : Int) (out : List (Int × Pair))
    (h : each_day days T W = .ok out) :
    out.map Prod.fst = date_range (dateOfTime T - (W - 2)) (dateOfTime T - 1)
    ∧ (∀ d : Int, d ∈ out.map Prod.fst ↔
        dateOfTime T - (W - 2) ≤ d ∧ d < dateOfTime T - 1)
    ∧ (out.map Prod.fst).Pairwise (· < ·)
    ∧ (3 ≤ W → (out.length : Int) = W - 3)
    ∧ dateOfTime T ∉ out.map Prod.fst
    ∧ dateOfTime T - 1 ∉ out.map Prod.fst := by
  have hd := each_day_ok_dates h
  refine ⟨hd, ?_, ?_, ?_, ?_, ?_⟩
  · intro d
    rw [hd]
    exact mem_date_range
  · rw [hd]
    exact date_range_pairwise_lt _ _
  · intro h3
    have hl : (out.map Prod.fst).length
        = ((dateOfTime T - 1) - (dateOfTime T - (W - 2))).toNat := by
      rw [hd, length_date_range]
    rw [List.length_map] at hl
    omega
  · rw [hd]
    intro hc
    have := mem_date_range.mp hc
    omega
  · rw [hd]
    intro hc
    have := mem_date_range.mp hc
    omega

/-- C2 witness: expanding an empty sparse list with `W = 4` at noon of day 100
yields the single day 98, and the span properties hold there. -/
theorem window_expander_span_witness :
    [((98 : Int), ((0 : Int), (0 : Int)))].map Prod.fst
      = date_range (dateOfTime (noon_time_from_date 100) - (4 - 2))
          (dateOfTime (noon_time_from_date 100) - 1) :=
  (window_expander_span [] (noon_time_from_date 100) 4
    [((98 : Int), ((0 : Int), (0 : Int)))] (by decide)).1

/-- C3 counterexample: the sparse input `[{date 0, count 5, uniques 3}]`
expands successfully (fetch at noon of day 100, window 14), yet the expanded
output has NO value at date 0 at all — the date lies outside the expansion
span and is silently dropped, so the output's value for this input date does
not equal the input's value. -/
theorem zero_fill_dropped_date_cex :
    (each_day [⟨0, 5, 3⟩] (noon_time_from_date 100) 14).isOk = true
    ∧ (⟨0, 5, 3⟩ : DayObs) ∈ [(⟨0, 5, 3⟩ : DayObs)]
    ∧ expandedLookup (each_day [⟨0, 5, 3⟩] (noon_time_from_date 100) 14) 0 = none :=
  ⟨by decide, by decide, by decide⟩

/-- C3 amended: for every sparse daily input with unique dates whose expansion
succeeds, every input date that lies inside the expanded span appears in the
output with the input's `(count, uniques)` value; every output entry whose
date is absent from the input has value `(0, 0)`; and every output entry whose
date is some input date carries that input's value.  (Input dates outside the
span are dropped and get no output entry.) -/
theorem zero_fill_correct_amended (days : List DayObs) (T W : Int)
    (out : List (Int × Pair)) (hnd : (days.map DayObs.date).Nodup)
    (h : each_day days T W = .ok out) :
    (∀ day ∈ days, day.date ∈ out.map Prod.fst →
        (day.date, (day.count, day.uniques)) ∈ out)
    ∧ (∀ e ∈ out, e.1 ∉ days.map DayObs.date → e.2 = (0, 0))
    ∧ (∀ e ∈ out, ∀ day ∈ days, day.date = e.1 → e.2 = (day.count, day.uniques)) := by
  have hkeys : ((days.map dayEntry).map Prod.fst).Nodup := by
    rw [dayEntry_keys]
    exact hnd
  have hout := each_day_ok_eq h
  have hlook : ∀ day ∈ days, lookupD (days.map dayEntry) day.date
      = (day.count, day.uniques) := by
    intro day hday
    have hmem : (day.date, (day.count, day.uniques)) ∈ days.map dayEntry := by
      have := List.mem_map_of_mem dayEntry hday
      simpa [dayEntry] using this
    rw [lookupD, alookup_of_mem_nodup hkeys hmem]
    rfl
  refine ⟨?_, ?_, ?_⟩
  · intro day hday hdmem
    rw [hout] at hdmem ⊢
    rw [map_fst_graph] at hdmem
    have h2 := List.mem_map_of_mem (fun d => (d, lookupD (days.map dayEntry) d)) hdmem
    simpa [hlook day hday] using h2
  · intro e he hnotin
    rw [hout] at he
    obtain ⟨d, _, rfl⟩ := List.mem_map.mp he
    simp only at hnotin ⊢
    rw [lookupD, alookup_eq_none.mpr (by rwa [dayEntry_keys])]
    rfl
  · intro e he day hday hde
    rw [hout] at he
    obtain ⟨d, _, rfl⟩ := List.mem_map.mp he
    simp only at hde ⊢
    rw [← hde, hlook day hday]

/-- C3 amended witness: with sparse input `[{date 98, count 5, uniques 7}]`,
fetch at noon of day 100 and `W = 4`, day 98 is in the span and the expanded
output carries the input value `(5, 7)`. -/
theorem zero_fill_correct_amended_witness :
    ((98 : Int), ((5 : Int), (7 : Int))) ∈ [((98 : Int), ((5 : Int), (7 : Int)))] :=
  (zero_fill_correct_amended [⟨98, 5, 7⟩] (noon_time_from_date 100) 4
      [((98 : Int), ((5 : Int), (7 : Int)))] (by decide) (by decide)).1
    ⟨98, 5, 7⟩ (by decide) (by decide)

/-- C8: for every sparse daily input containing the same date twice, the
Window Expander fails with a `DuplicateDayError` and never yields an expanded
sequence; for every input with pairwise-distinct dates it does not raise this
error (it yields an expanded sequence). -/
theorem duplicate_day_error_iff (days : List DayObs) (T W : Int) :
    (¬ (days.map DayObs.date).Nodup →
      ∃ d, each_day days T W = .error (.duplicateDayError d))
    ∧ ((days.map DayObs.date).Nodup → ∃ out, each_day days T W = .ok out) := by
  constructor
  · exact each_day_error_of_dup
  · intro h
    exact ⟨_, each_day_ok_of_nodup h⟩

/-- C8 witness: a duplicated day 90 makes expansion fail with
`DuplicateDayError`, and a duplicate-free input expands successfully. -/
theorem duplicate_day_error_iff_witness :
    (∃ d, each_day [⟨90, 1, 1⟩, ⟨90, 2, 2⟩] (noon_time_from_date 100) 14
        = .error (.duplicateDayError d))
    ∧ (∃ out, each_day [⟨98, 5, 7⟩] (noon_time_from_date 100) 4 = .ok out) :=
  ⟨(duplicate_day_error_iff [⟨90, 1, 1⟩, ⟨90, 2, 2⟩] (noon_time_from_date 100) 14).1
      (by decide),
   (duplicate_day_error_iff [⟨98, 5, 7⟩] (noon_time_from_date 100) 4).2 (by decide)⟩

/-- C1: for every repository's snapshot list, metric selector and window
length, (a) on success the reconciled series assigns to each date the first
observed `(count, uniques)` pair of the expanded snapshot windows (in traversal
order), and (b) whenever the expanded windows contain two different pairs for
the same date, reconciliation fails with a `ReconciliationConflictError`
carrying the date and the two conflicting values, rather than silently picking
either. -/
theorem reconciler_merge_rule (objs : List Snapshot) (key : Snapshot → Metric) (W : Int) :
    (∀ dates counts uniques,
      get_daily_stats objs key W = .ok (dates, counts, uniques) →
      counts.length = dates.length ∧ uniques.length = dates.length ∧
      ∀ x ∈ dates.zip (counts.zip uniques),
        firstObs (obsStream objs key W) x.1 = some x.2)
    ∧ (allExpandOk objs key W →
      ∀ d p q, (d, p) ∈ obsStream objs key W → (d, q) ∈ obsStream objs key W →
        p ≠ q →
      ∃ dc v1 v2, v1 ≠ v2 ∧
        get_daily_stats objs key W
          = .error (.reconciliationConflictError dc v1 v2)) := by
  constructor
  · intro dates counts uniques h
    obtain ⟨m, hm, hdates, hcounts, huniques, hne⟩ := get_daily_stats_ok_elim h
    have hok : allExpandOk objs key W := mergeObjs_ok_expand hm
    have hme : mergeEntries [] (obsStream objs key W) = .ok m := by
      rw [← mergeObjs_eq hok]
      exact hm
    refine ⟨by rw [hcounts]; simp, by rw [huniques]; simp, ?_⟩
    have hzip : dates.zip (counts.zip uniques)
        = dates.map (fun d => (d, lookupD m d)) := by
      rw [hcounts, huniques, zip_map_fst_snd, zip_self_map]
    intro x hx
    rw [hzip] at hx
    obtain ⟨d, hd, rfl⟩ := List.mem_map.mp hx
    have hdm : d ∈ m.map Prod.fst := by
      rw [hdates] at hd
      exact ((List.perm_insertionSort _ _).mem_iff).mp hd
    obtain ⟨v, hv⟩ : ∃ v, alookup d m = some v := by
      cases hv : alookup d m with
      | none => exact absurd hdm (alookup_eq_none.mp hv)
      | some v => exact ⟨v, rfl⟩
    have hvin : (d, v) ∈ obsStream objs key W := by
      rcases mergeEntries_lookup_src hme hv with h1 | h1
      · simp [alookup] at h1
      · exact h1
    obtain ⟨e0, he0⟩ : ∃ e0,
        (obsStream objs key W).find? (fun e => decide (e.1 = d)) = some e0 := by
      refine Option.isSome_iff_exists.mp (List.find?_isSome.mpr ⟨(d, v), hvin, by simp⟩)
    obtain ⟨d0, p0⟩ := e0
    have he0d : d0 = d := by
      have := List.find?_some he0
      simpa using this
    subst he0d
    have he0mem : (d0, p0) ∈ obsStream objs key W := List.mem_of_find?_eq_some he0
    have hp0 : alookup d0 m = some p0 := mergeEntries_mem hme he0mem
    rw [hv] at hp0
    injection hp0 with hvp
    simp only [firstObs, he0, lookupD, hv, Option.getD_some]
    rw [hvp]
    rfl
  · intro hok d p q hp hq hne
    have hmeq : mergeObjs key W [] objs = mergeEntries [] (obsStream objs key W) :=
      mergeObjs_eq hok
    cases hres : mergeEntries [] (obsStream objs key W) with
    | ok m =>
      have h1 := mergeEntries_mem hres hp
      have h2 := mergeEntries_mem hres hq
      rw [h1] at h2
      injection h2 with h3
      exact absurd h3 hne
    | error e =>
      obtain ⟨d2, p2, q2, hne2, he⟩ := mergeEntries_error_conflict hres
      refine ⟨d2, q2, p2, hne2, ?_⟩
      unfold get_daily_stats
      rw [hmeq, hres]
      subst he
      rfl

/-- C1 witness: a lone snapshot reporting `(5, 7)` on day 98 reconciles to the
first (only) observation, and two snapshots reporting `(1, 1)` versus `(2, 2)`
for day 98 make reconciliation fail with a `ReconciliationConflictError`. -/
theorem reconciler_merge_rule_witness :
    firstObs (obsStream [exSnapC] (fun s => s.clones) 4) 98 = some (5, 7)
    ∧ ∃ dc v1 v2, v1 ≠ v2 ∧
        get_daily_stats [exSnapX1, exSnapX2] (fun s => s.clones) 4
          = .error (.reconciliationConflictError dc v1 v2) := by
  constructor
  · exact ((reconciler_merge_rule [exSnapC] (fun s => s.clones) 4).1
      [98] [5] [7] (by decide)).2.2 (98, (5, 7)) (by decide)
  · exact (reconciler_merge_rule [exSnapX1, exSnapX2] (fun s => s.clones) 4).2
      (by decide) 98 (1, 1) (2, 2) (by decide) (by decide) (by decide)

/-- C4: reconciling snapshots whose expanded windows contain no conflicting
observations yields the same canonical series under any permutation of the
snapshot order, and reconciling a snapshot's expansion together with a
duplicate of itself yields exactly the single-snapshot result. -/
theorem reconciliation_order_insensitive :
    (∀ (objs objs2 : List Snapshot) (key : Snapshot → Metric) (W : Int),
      List.Perm objs objs2 → allExpandOk objs key W →
      consistentStream (obsStream objs key W) →
      get_daily_stats objs key W = get_daily_stats objs2 key W)
    ∧ (∀ (s : Snapshot) (key : Snapshot → Metric) (W : Int),
      get_daily_stats [s, s] key W = get_daily_stats [s] key W) := by
  constructor
  · intro objs objs2 key W hperm hok hcon
    have hok2 : allExpandOk objs2 key W := fun o ho => hok o (hperm.mem_iff.mpr ho)
    have hmem : ∀ e, e ∈ obsStream objs key W ↔ e ∈ obsStream objs2 key W := by
      intro e
      simp only [obsStream, List.mem_flatMap]
      constructor
      · rintro ⟨o, ho, he⟩
        exact ⟨o, hperm.mem_iff.mp ho, he⟩
      · rintro ⟨o, ho, he⟩
        exact ⟨o, hperm.mem_iff.mpr ho, he⟩
    exact get_daily_stats_ext hok hok2 hcon hmem
  · intro s key W
    cases he : each_day (key s).daily s.time W with
    | error e =>
      have h1 : mergeObjs key W [] [s, s] = .error e := by
        simp [mergeObjs, he]
      have h2 : mergeObjs key W [] [s] = .error e := by
        simp [mergeObjs, he]
      unfold get_daily_stats
      rw [h1, h2]
    | ok entries =>
      have hok1 : allExpandOk [s, s] key W := by
        intro o ho
        rcases List.mem_cons.mp ho with rfl | ho2
        · rw [he]; rfl
        · rcases List.mem_cons.mp ho2 with rfl | ho3
          · rw [he]; rfl
          · simp at ho3
      have hok2 : allExpandOk [s] key W := by
        intro o ho
        rcases List.mem_cons.mp ho with rfl | ho2
        · rw [he]; rfl
        · simp at ho2
      have hkeysnd : (entries.map Prod.fst).Nodup := by
        rw [each_day_ok_dates he]
        exact date_range_nodup _ _
      have hstream1 : ∀ e2 : Int × Pair, e2 ∈ obsStream [s, s] key W ↔ e2 ∈ entries := by
        intro e2
        simp [obsStream, expandOrNil, he]
      have hstream2 : ∀ e2 : Int × Pair, e2 ∈ obsStream [s] key W ↔ e2 ∈ entries := by
        intro e2
        simp [obsStream, expandOrNil, he]
      have hcon : consistentStream (obsStream [s, s] key W) := by
        intro e1 he1 e2 he2 h12
        exact congrArg Prod.snd (eq_of_mem_keys_nodup hkeysnd ((hstream1 e1).mp he1)
          ((hstream1 e2).mp he2) h12)
      refine get_daily_stats_ext hok1 hok2 hcon ?_
      intro e2
      rw [hstream1, hstream2]

/-- C4 witness: two conflict-free snapshots (noon of day 100 and noon of
day 101, no traffic) reconcile to the same series in either order. -/
theorem reconciliation_order_insensitive_witness :
    get_daily_stats [exSnapB, exSnapP2] (fun s => s.clones) 4
      = get_daily_stats [exSnapP2, exSnapB] (fun s => s.clones) 4 :=
  (reconciliation_order_insensitive).1 [exSnapB, exSnapP2] [exSnapP2, exSnapB]
    (fun s => s.clones) 4 (List.Perm.swap exSnapP2 exSnapB []) (by decide) (by decide)

/-- C10 (implicit): when both per-metric reconciliations of one snapshot list
succeed, the reconciled date axes for clones and views are identical — the
expanded window of each snapshot depends only on its fetch time and the window
length, never on the sparse daily contents — and consequently `process_repo`
can never fail with `MetricAlignmentError`. -/
theorem metric_alignment_unreachable :
    (∀ (objs : List Snapshot) (d1 c1 u1 d2 c2 u2 : List Int),
      get_daily_stats objs (fun s => s.clones) 14 = .ok (d1, c1, u1) →
      get_daily_stats objs (fun s => s.views) 14 = .ok (d2, c2, u2) → d1 = d2)
    ∧ (∀ (repo : String) (objs : List Snapshot),
      process_repo repo objs ≠ .error .metricAlignmentError) := by
  have hmain : ∀ (objs : List Snapshot) (d1 c1 u1 d2 c2 u2 : List Int),
      get_daily_stats objs (fun s => s.clones) 14 = .ok (d1, c1, u1) →
      get_daily_stats objs (fun s => s.views) 14 = .ok (d2, c2, u2) → d1 = d2 := by
    intro objs d1 c1 u1 d2 c2 u2 h1 h2
    obtain ⟨m1, hm1, hdates1, _, _, _⟩ := get_daily_stats_ok_elim h1
    obtain ⟨m2, hm2, hdates2, _, _, _⟩ := get_daily_stats_ok_elim h2
    have hok1 := mergeObjs_ok_expand hm1
    have hok2 := mergeObjs_ok_expand hm2
    have hme1 : mergeEntries [] (obsStream objs (fun s => s.clones) 14) = .ok m1 := by
      rw [← mergeObjs_eq hok1]
      exact hm1
    have hme2 : mergeEntries [] (obsStream objs (fun s => s.views) 14) = .ok m2 := by
      rw [← mergeObjs_eq hok2]
      exact hm2
    have hn1 : (m1.map Prod.fst).Nodup :=
      @mergeEntries_keys_nodup _ [] m1 (by simp) hme1
    have hn2 : (m2.map Prod.fst).Nodup :=
      @mergeEntries_keys_nodup _ [] m2 (by simp) hme2
    have hkeys : ∀ d, d ∈ m1.map Prod.fst ↔ d ∈ m2.map Prod.fst := by
      intro d
      rw [merged_keys_iff hok1 hm1 d, merged_keys_iff hok2 hm2 d]
    rw [hdates1, hdates2, insertionSort_eq_of_mem_iff hn1 hn2 hkeys]
  refine ⟨hmain, ?_⟩
  intro repo objs hc
  unfold process_repo at hc
  cases h1 : get_daily_stats objs (fun s => s.clones) 14 with
  | error e =>
    simp only [h1] at hc
    injection hc with he
    subst he
    rcases gds_error_shape h1 with ⟨d, hd⟩ | ⟨d, p, q, _, hd⟩ | hd <;> cases hd
  | ok t1 =>
    obtain ⟨d1, c1, u1⟩ := t1
    cases h2 : get_daily_stats objs (fun s => s.views) 14 with
    | error e =>
      simp only [h1, h2] at hc
      injection hc with he
      subst he
      rcases gds_error_shape h2 with ⟨d, hd⟩ | ⟨d, p, q, _, hd⟩ | hd <;> cases hd
    | ok t2 =>
      obtain ⟨d2, c2, u2⟩ := t2
      simp only [h1, h2] at hc
      by_cases hd : d1 = d2
      · rw [if_pos hd] at hc
        split_ifs at hc with h3
        · cases hc
      · exact hd (hmain objs d1 c1 u1 d2 c2 u2 h1 h2)

/-- C10 witness: for the single snapshot `exSnapB`, both metrics reconcile to
the same 11-day date axis. -/
theorem metric_alignment_unreachable_witness : exDates = exDates :=
  (metric_alignment_unreachable).1 [exSnapB] exDates exZeros exZeros
    exDates exZeros exZeros (by decide) (by decide)

/-- C6 counterexample: two snapshots of one repository in decreasing
fetch-time order process successfully, and the emitted point series keeps the
snapshot order — `[noon of day 200, noon of day 100]` — which is NOT sorted by
fetch time, refuting the claim's sortedness clause. -/
theorem point_series_unsorted_cex :
    (process_repo "r" [exSnapT2, exSnapT1]).isOk = true
    ∧ pointTimesOf (process_repo "r" [exSnapT2, exSnapT1])
        = [noon_time_from_date 200, noon_time_from_date 100]
    ∧ ¬ (pointTimesOf (process_repo "r" [exSnapT2, exSnapT1])).Sorted (· ≤ ·) :=
  ⟨by decide, by decide, by decide⟩

/-- C6 amended: the emitted point series contains exactly one
`(fetch_time, stars, forks, watchers)` entry per snapshot with no
deduplication even for identical fetch times, in the ORDER THE SNAPSHOTS
APPEAR in the input; it is sorted by fetch time only when the input snapshot
list already is (as when the raw log was appended chronologically). -/
theorem point_series_amended (repo : String) (objs : List Snapshot)
    (r : ProcessedRecord) (h : process_repo repo objs = .ok r) :
    r.point.times = objs.map Snapshot.time
    ∧ r.point.forks = objs.map Snapshot.forks
    ∧ r.point.stars = objs.map Snapshot.stars
    ∧ r.point.watchers = objs.map Snapshot.watchers
    ∧ ((objs.map Snapshot.time).Sorted (· ≤ ·) → r.point.times.Sorted (· ≤ ·)) := by
  unfold process_repo at h
  cases h1 : get_daily_stats objs (fun s => s.clones) 14 with
  | error e =>
    simp only [h1] at h
    cases h
  | ok t1 =>
    obtain ⟨dates, clones, cloners⟩ := t1
    cases h2 : get_daily_stats objs (fun s => s.views) 14 with
    | error e =>
      simp only [h1, h2] at h
      cases h
    | ok t2 =>
      obtain ⟨dates2, views, viewers⟩ := t2
      simp only [h1, h2] at h
      by_cases hd : dates = dates2
      · rw [if_pos hd] at h
        rw [get_point_stats_eq objs (fun s => s.forks),
          get_point_stats_eq objs (fun s => s.stars),
          get_point_stats_eq objs (fun s => s.watchers)] at h
        split_ifs at h with h3
        injection h with hr
        subst hr
        exact ⟨rfl, rfl, rfl, rfl, fun hs => hs⟩
      · rw [if_neg hd] at h
        cases h

/-- C6 amended witness: for the out-of-order pair of snapshots, the emitted
point timestamps equal the snapshots' fetch times in input order. -/
theorem point_series_amended_witness :
    pointTimesOf (process_repo "r" [exSnapT2, exSnapT1])
      = [exSnapT2, exSnapT1].map Snapshot.time := by
  obtain ⟨r, hr⟩ := except_isOk_iff.mp
    (show (process_repo "r" [exSnapT2, exSnapT1]).isOk = true by decide)
  rw [hr]
  exact (point_series_amended "r" [exSnapT2, exSnapT1] r hr).1

/-- C5 counterexample: a raw log with a malformed repository `a` (duplicate
day) and a healthy repository `b`.  Processing aborts on `a` with NO files
written at all: in particular `b` — which processes fine on its own — gets no
processed file, refuting the claim that a fault in one repository does not
prevent the others in the batch from completing. -/
theorem batch_fault_aborts_cex :
    (process_repos [exSnapDup, exSnapB] []).1 = []
    ∧ (process_repos [exSnapDup, exSnapB] []).2
        = some (.perRepo "a" (.duplicateDayError 90))
    ∧ (process_repo "b" [exSnapB]).isOk = true :=
  ⟨by decide, by decide, by decide⟩

/-- C5 amended: an assertion failure while processing one repository emits no
record (partial or complete) for that repository, and the repositories sorted
BEFORE it in the batch keep their processed files — but the batch loop stops
at the failure, so no repository sorted after the failing one is processed. -/
theorem batch_fault_abort_amended
    (pre post : List (String × List Snapshot)) (rb : String) (ob : List Snapshot)
    (e : ProcessError) (w : List (String × ProcessedRecord))
    (hpre : ∀ x ∈ pre, (process_repo x.1 x.2).isOk = true)
    (hbad : process_repo rb ob = .error e) :
    (processRepoLoop (pre ++ (rb, ob) :: post) w).1.map Prod.fst
      = w.map Prod.fst ++ pre.map (fun x => repoBasename x.1)
    ∧ (processRepoLoop (pre ++ (rb, ob) :: post) w).2 = some (.perRepo rb e) := by
  revert hpre
  induction pre generalizing w with
  | nil =>
    intro _
    refine ⟨?_, ?_⟩
    · simp only [List.nil_append, processRepoLoop, hbad]
      simp
    · simp only [List.nil_append, processRepoLoop, hbad]
  | cons x rest ih =>
    intro hpre
    obtain ⟨rx, ox⟩ := x
    obtain ⟨r0, hr0⟩ := except_isOk_iff.mp (hpre (rx, ox) (List.mem_cons_self _ _))
    have hrest : ∀ y ∈ rest, (process_repo y.1 y.2).isOk = true :=
      fun y hy => hpre y (List.mem_cons_of_mem _ hy)
    have hx := ih (w ++ [(repoBasename rx, r0)]) hrest
    refine ⟨?_, ?_⟩
    · simp only [List.cons_append, processRepoLoop, hr0, List.append_eq]
      rw [hx.1]
      simp [List.append_assoc]
    · simp only [List.cons_append, processRepoLoop, hr0, List.append_eq]
      exact hx.2

/-- C5 amended witness: with a healthy repository before and after the
malformed one, only the earlier repository's file is written and the loop
reports the failure. -/
theorem batch_fault_abort_amended_witness :
    (processRepoLoop [("b", [exSnapB]), ("x", [exSnapDup]), ("z", [exSnapB])] []).1.map
        Prod.fst
      = ([] : List (String × ProcessedRecord)).map Prod.fst
        ++ [("b", [exSnapB])].map (fun x => repoBasename x.1)
    ∧ (processRepoLoop [("b", [exSnapB]), ("x", [exSnapDup]), ("z", [exSnapB])] []).2
        = some (.perRepo "x" (.duplicateDayError 90)) :=
  batch_fault_abort_amended [("b", [exSnapB])] [("z", [exSnapB])] "x" [exSnapDup]
    (.duplicateDayError 90) [] (by decide) (by decide)

/-- C9: the processed output is a deterministic function of the raw log alone:
whenever a run succeeds, running the pipeline again — whatever processed
records the output directory already holds — produces identical directory
contents and outcome, because the directory is wiped and fully rebuilt. -/
theorem pipeline_deterministic (raw : List Snapshot)
    (d1 d2 : List (String × ProcessedRecord))
    (h : (process_repos raw d1).2 = none) :
    process_repos raw d1 = process_repos raw d2 := by
  cases raw with
  | nil => simp [process_repos] at h
  | cons s rest => rfl

/-- C9 witness: re-running on the one-snapshot raw log with stale prior output
reproduces the first run's output exactly. -/
theorem pipeline_deterministic_witness :
    process_repos [exSnapB] [] = process_repos [exSnapB] [("stale.json", exStaleRecord)] :=
  pipeline_deterministic [exSnapB] [] [("stale.json", exStaleRecord)] (by decide)

/-- C7 counterexample: a snapshot whose sparse lists are non-empty (the
original claim's only premise) but not chronologically sorted: its earliest
reported day (day 80) lies 15.5 days before its fetch time, so the claim
demands an assert-failure, yet the verifier — which only inspects
`days[0]`, here day 90 — succeeds. -/
theorem verifier_unsorted_daily_cex :
    verifier_main [exSnapVcex] = .ok ()
    ∧ exSnapVcex ∈ [exSnapVcex]
    ∧ exSnapVcex.clones.daily ≠ []
    ∧ exSnapVcex.views.daily ≠ []
    ∧ ¬ (claimGapSecs exSnapVcex < 14 * secPerDay) :=
  ⟨by decide, by decide, by decide, by decide, by decide⟩

/-- C7 amended: for every NON-EMPTY raw log in which each snapshot's clones
and views daily lists are non-empty AND chronologically sorted (as the
Snapshot data model guarantees, making `days[0]` the earliest entry), the
verifier succeeds exactly when every snapshot's gap — fetch time minus
midnight of the earliest reported date, minimised over the two metrics — lies
in `[0, 14)` days. -/
theorem verifier_gap_amended (log : List Snapshot) (hne : log ≠ [])
    (hdata : ∀ s ∈ log, s.clones.daily ≠ [] ∧ s.views.daily ≠ []
      ∧ (s.clones.daily.map DayObs.date).Sorted (· ≤ ·)
      ∧ (s.views.daily.map DayObs.date).Sorted (· ≤ ·)) :
    verifier_main log = .ok () ↔
      ∀ s ∈ log, 0 ≤ claimGapSecs s ∧ claimGapSecs s < 14 * secPerDay := by
  have hvm : verifier_main log
      = (match List.insertionSort (· ≤ ·) (log.map claimGapSecs) with
        | [] => Except.error VerifyError.indexError
        | a :: rest =>
          if 0 ≤ a then
            if (a :: rest).getLast (List.cons_ne_nil a rest) < 14 * secPerDay then
              Except.ok ()
            else Except.error VerifyError.assertionError
          else Except.error VerifyError.assertionError) := by
    unfold verifier_main
    rw [collectGaps_eq hdata]
  cases hsort : List.insertionSort (· ≤ ·) (log.map claimGapSecs) with
  | nil =>
    exfalso
    have hlen := (List.perm_insertionSort (· ≤ ·) (log.map claimGapSecs)).length_eq
    rw [hsort] at hlen
    cases log with
    | nil => exact absurd rfl hne
    | cons s rest => simp at hlen
  | cons a rest =>
    have hvm2 : verifier_main log
        = (if 0 ≤ a then
            if (a :: rest).getLast (List.cons_ne_nil a rest) < 14 * secPerDay then
              Except.ok ()
            else Except.error VerifyError.assertionError
          else Except.error VerifyError.assertionError) := by
      rw [hvm, hsort]
    rw [hvm2]
    have hsorted : (a :: rest).Sorted (· ≤ ·) := by
      rw [← hsort]
      exact List.sorted_insertionSort _ _
    have hmemiff : ∀ x : Int, x ∈ a :: rest ↔ x ∈ log.map claimGapSecs := by
      intro x
      rw [← hsort]
      exact (List.perm_insertionSort _ _).mem_iff
    constructor
    · intro hok s hs
      by_cases h0 : 0 ≤ a
      · rw [if_pos h0] at hok
        by_cases hB : (a :: rest).getLast (List.cons_ne_nil a rest) < 14 * secPerDay
        · have hx : claimGapSecs s ∈ a :: rest :=
            (hmemiff _).mpr (List.mem_map_of_mem claimGapSecs hs)
          have ha : a ≤ claimGapSecs s := by
            rcases List.mem_cons.mp hx with he | hx2
            · rw [he]
            · exact (List.sorted_cons.mp hsorted).1 _ hx2
          have hlast := le_getLast?_of_sorted hsorted
            (List.getLast?_eq_getLast _ (List.cons_ne_nil a rest)) hx
          exact ⟨le_trans h0 ha, lt_of_le_of_lt hlast hB⟩
        · rw [if_neg hB] at hok
          cases hok
      · rw [if_neg h0] at hok
        cases hok
    · intro hall
      have hbounds : ∀ x ∈ a :: rest, 0 ≤ x ∧ x < 14 * secPerDay := by
        intro x hx
        obtain ⟨s, hs, rfl⟩ := List.mem_map.mp ((hmemiff x).mp hx)
        exact hall s hs
      have h0 : 0 ≤ a := (hbounds a (List.mem_cons_self _ _)).1
      have hB : (a :: rest).getLast (List.cons_ne_nil a rest) < 14 * secPerDay :=
        (hbounds _ (List.getLast_mem _)).2
      rw [if_pos h0, if_pos hB]

/-- C7 amended witness: a sorted, in-range log passes the verifier. -/
theorem verifier_gap_amended_witness : verifier_main [exSnapVgood] = .ok () :=
  (verifier_gap_amended [exSnapVgood] (by decide) (by decide)).mpr (by decide)

end RepoTraffic
